import Mathlib

/-!
Verification of the `yelp_sampling` repository (files `scalable_srs.py` and
`srs_sampling.py`) against its natural-language specification.

Modelling conventions for the shallow embedding:

* Python floats are modelled as real numbers where the code computes with
  `math.log`/`math.sqrt` (threshold derivation), and as rationals elsewhere
  (sizes, counts, and the concrete keys used in witnesses).
* `random.Random(seed + idx).random()` produces one uniform variate per row,
  regenerated identically in both passes.  The generator is modelled as a
  caller-supplied map `keyed : ℤ → List (β × ℝ)` sending a resolved seed to
  the rows of the (single logical partition of the) dataset paired with their
  per-row keys; both passes consume `keyed s` for the same resolved seed `s`,
  which is exactly the determinism property the code relies on.
* Python dicts are modelled as association lists in insertion order.
* A raised exception is modelled as `Option.none`.
* `int(...)` on a number truncates toward zero (`pyInt`); `x[-1]`/`x[-2]`
  negative indexing is modelled by `pyLast`/`pySecondLast`.
-/

namespace YelpSampling

/-- Python `int(q)` for a rational `q`: truncation toward zero. -/
def pyInt (q : ℚ) : ℤ := if q < 0 then ⌈q⌉ else ⌊q⌋

/-- Python `xs[-1]` (with a default in place of an `IndexError` on `[]`). -/
def pyLast {α : Type} (xs : List α) (d : α) : α := xs.getD (xs.length - 1) d

/-- Python `xs[-2]` (with a default in place of an `IndexError` when short). -/
def pySecondLast {α : Type} (xs : List α) (d : α) : α := xs.getD (xs.length - 2) d

/-- `heapq.nsmallest n xs`: the `n` smallest elements of `xs`, ascending. -/
def nsmallest {α : Type} [LinearOrder α] (n : ℕ) (xs : List α) : List α :=
  (xs.insertionSort (· ≤ ·)).take n

/-- `seed = int(seed or time.time())` in `scalable_srs`: a falsy seed
(`None`, or the integer `0`) is replaced by the wall-clock value `clock`. -/
def resolveSeed (seed : Option ℤ) (clock : ℚ) : ℤ :=
  match seed with
  | none => pyInt clock
  | some s => if s = 0 then pyInt clock else s

/-- The first line of `_set_up_set_sizes`: each entry `< 1.0` is a ratio and
becomes `int(v * count)`, any other entry becomes `int(v)`. -/
def convertSizes (set_sizes : List (String × ℚ)) (count : ℚ) :
    List (String × ℚ) :=
  set_sizes.map (fun p => (p.1, (pyInt (if p.2 < 1 then p.2 * count else p.2) : ℚ)))

/-- `_set_up_set_sizes(set_sizes, count, reproportion)`.  If the converted
sizes sum to more than `count`, the sizes are rescaled by `count / sum` when
`reproportion` is set and otherwise a `ValueError` (`none` here) is raised. -/
def _set_up_set_sizes (set_sizes : List (String × ℚ)) (count : ℚ)
    (reproportion : Bool) : Option (List (String × ℚ)) :=
  let sizes := convertSizes set_sizes count
  let sampled_size := (sizes.map Prod.snd).sum
  if count < sampled_size then
    if reproportion then
      some (sizes.map (fun p => (p.1, p.2 * count / sampled_size)))
    else none
  else some sizes

/-- `_compute_thresholds(ratio, population_size, delta)`. -/
noncomputable def _compute_thresholds (ratio population_size delta : ℝ) : ℝ × ℝ :=
  let gamma1 := -Real.log delta / population_size
  let gamma2 := -(2 * Real.log delta) / (3 * population_size)
  let q_low := max 0 (ratio + gamma2 - Real.sqrt (gamma2 ^ 2 + 3 * gamma2 * ratio))
  let q_high := min 1 (ratio + gamma1 + Real.sqrt (gamma1 ^ 2 + 2 * gamma1 * ratio))
  (q_low, q_high)

/-- The loop body of `_get_initial_thresholds`: walks the set list carrying
the running `offset`, emitting `(offset, offset + q_low, offset + q_high)`
for each set and advancing the offset by `q_high`. -/
noncomputable def initialThresholdsGo (count : ℚ) (delta : ℝ) :
    ℝ → List (String × ℚ) → List (String × ℝ × ℝ × ℝ)
  | _, [] => []
  | offset, p :: rest =>
    (p.1, offset, offset + (_compute_thresholds ((p.2 : ℝ) / (count : ℝ)) (count : ℝ) delta).1,
      offset + (_compute_thresholds ((p.2 : ℝ) / (count : ℝ)) (count : ℝ) delta).2) ::
      initialThresholdsGo count delta
        (offset + (_compute_thresholds ((p.2 : ℝ) / (count : ℝ)) (count : ℝ) delta).2) rest

/-- `_get_initial_thresholds(set_sizes, count, delta)`: accept/waitlist triples
per set, offset so that consecutive sets occupy consecutive key-space
intervals.  The function performs no capacity check of any kind. -/
noncomputable def _get_initial_thresholds (set_sizes : List (String × ℚ))
    (count : ℚ) (delta : ℝ) : List (String × ℝ × ℝ × ℝ) :=
  initialThresholdsGo count delta 0 set_sizes

/-- One record's effect on one set's `[count, waitlist]` cell in
`_threshold_accumulator`: `key < low` skip, `key < accept` count,
`key < waitlist` append the key, else reject. -/
def accumUpdate {α : Type} [LinearOrder α] (key : α) (t : α × α × α)
    (v : ℕ × List α) : ℕ × List α :=
  if key < t.1 then v
  else if key < t.2.1 then (v.1 + 1, v.2)
  else if key < t.2.2 then (v.1, v.2 ++ [key])
  else v

/-- The per-set view of the accumulation loop: fold all keys into one set's
`[count, waitlist]` cell. -/
def tallyFor {α : Type} [LinearOrder α] (t : α × α × α) (keys : List α) :
    ℕ × List α :=
  keys.foldl (fun v key => accumUpdate key t v) (0, [])

/-- `_threshold_accumulator(idx, rows, thresholds, seed)`.  The `values` dict
(one `[0, []]` cell per set, in threshold order) is modelled as a list of
cells aligned with `thresholds`; each row's key updates every cell. -/
def _threshold_accumulator {α : Type} [LinearOrder α]
    (thresholds : List (String × α × α × α)) (keys : List α) :
    List (String × ℕ × List α) :=
  List.zip (thresholds.map Prod.fst)
    (keys.foldl
      (fun values key => List.zipWith (fun t v => accumUpdate key t.2 v) thresholds values)
      (thresholds.map (fun _ => (0, []))))

/-- Pointwise addition of two `[count, waitlist]` cells, the elementwise
`a[name][i] += v` of `_dict_addition_reducer`. -/
def addValue {α : Type} (v w : ℕ × List α) : ℕ × List α := (v.1 + w.1, v.2 ++ w.2)

/-- One entry of `b` folded into `a` by `_dict_addition_reducer`: a name
already present has its cell added elementwise, a new name is inserted at
the end (Python dict insertion order). -/
def reducerStep {α : Type} (acc : List (String × ℕ × List α))
    (p : String × ℕ × List α) : List (String × ℕ × List α) :=
  if (acc.lookup p.1).isSome then
    acc.map (fun q => if q.1 = p.1 then (q.1, addValue q.2 p.2) else q)
  else acc ++ [p]

/-- `_dict_addition_reducer(a, b)`: every entry of `b` is folded into `a`. -/
def _dict_addition_reducer {α : Type} (a b : List (String × ℕ × List α)) :
    List (String × ℕ × List α) :=
  b.foldl reducerStep a

/-- Optional elementwise addition: how a looked-up cell (if any) combines
with an existing cell. -/
def combineOpt {α : Type} (v : ℕ × List α) : Option (ℕ × List α) → ℕ × List α
  | none => v
  | some w => addValue v w

/-- Concrete tally fixtures for the C8 witness. -/
def tallyA : List (String × ℕ × List ℚ) := [("s", (1, [1]))]

/-- Concrete tally fixture. -/
def tallyB : List (String × ℕ × List ℚ) := [("s", (2, [2])), ("t", (0, []))]

/-- Concrete tally fixture. -/
def tallyC : List (String × ℕ × List ℚ) := [("u", (5, [3]))]

/-- The per-set body of `_get_final_thresholds`: given the target `size`, the
tally cell `cw = (count, waitlist)` and the triple `t = (low, accept, cutoff)`,
choose the final `(low, high)` interval. -/
def finalFor {α : Type} [LinearOrder α] [Zero α] (size : ℚ) (cw : ℕ × List α)
    (t : α × α × α) : α × α :=
  let required : ℚ := size - cw.1
  if required ≤ 0 then (t.1, t.2.1)
  else if (cw.2.length : ℚ) ≤ required then (t.1, t.2.2)
  else (t.1, pyLast (nsmallest (⌊required⌋.toNat + 1) cw.2) 0)

/-- `_get_final_thresholds(counts, set_sizes, thresholds)`: iterate over
`set_sizes`, looking the tally and threshold dicts up by name.  (A missing
name would be a Python `KeyError`; the `getD` defaults are never reached in
the pipeline, where both dicts carry exactly the set names.) -/
def _get_final_thresholds {α : Type} [LinearOrder α] [Zero α]
    (counts : List (String × ℕ × List α)) (set_sizes : List (String × ℚ))
    (thresholds : List (String × α × α × α)) : List (String × α × α) :=
  set_sizes.map
    (fun p =>
      (p.1, finalFor p.2 ((counts.lookup p.1).getD (0, []))
        ((thresholds.lookup p.1).getD (0, 0, 0))))

/-- One record in `_threshold_mapper`'s loop over `thresholds.items()`:
`key < low` goes on to the next set, `key < high` yields `(name, row)` and
breaks, otherwise the loop also goes on to the next set. -/
def mapRecord {α β : Type} [LinearOrder α] (rk : β × α) :
    List (String × α × α) → Option (String × β)
  | [] => none
  | t :: rest =>
    if rk.2 < t.2.1 then mapRecord rk rest
    else if rk.2 < t.2.2 then some (t.1, rk.1)
    else mapRecord rk rest

/-- `_threshold_mapper(idx, rows, thresholds, seed)`: each row is re-keyed and
yielded under the first set whose final `[low, high)` interval contains the
key. -/
def _threshold_mapper {α β : Type} [LinearOrder α]
    (thresholds : List (String × α × α)) (data : List (β × α)) :
    List (String × β) :=
  data.filterMap (fun rk => mapRecord rk thresholds)

/-- `scalable_srs(rdd, set_sizes, count, delta, seed, reproportion)`: the full
two-pass pipeline.  The dataset with its per-row random keys is `keyed s`
(one logical partition; `rdd.reduce(_dict_addition_reducer)` over the
single-partition tally list is the identity, and `tallyFor_append` below
shows per-partition tallies compose by concatenation of key streams).
A `ValueError` from size normalization propagates to the caller as `none`. -/
noncomputable def scalable_srs {β : Type} (keyed : ℤ → List (β × ℝ))
    (set_sizes : List (String × ℚ)) (count : ℚ) (delta : ℝ)
    (seed : Option ℤ) (clock : ℚ) (reproportion : Bool) :
    Option (List (String × β)) :=
  let s := resolveSeed seed clock
  match _set_up_set_sizes set_sizes count reproportion with
  | none => none
  | some sizes =>
    let thresholds := _get_initial_thresholds sizes count delta
    let counts := _threshold_accumulator thresholds ((keyed s).map Prod.snd)
    let final_thresholds := _get_final_thresholds counts sizes thresholds
    some (_threshold_mapper final_thresholds (keyed s))

/-- Absolute (natural-number) target sizes as the rational-valued map that
`scalable_srs` receives. -/
def ofNatSizes (sizes : List (String × ℕ)) : List (String × ℚ) :=
  sizes.map (fun p => (p.1, (p.2 : ℚ)))

end YelpSampling

namespace SrsSampling

/-- `filter_ad_events(idx, ad_events, lower_theshold, upper_theshold, seed)`
from `srs_sampling.py`: keep the rows whose regenerated key lies strictly
between the two thresholds.  The lower threshold is `float('-inf')` at one
call site, hence `WithBot ℚ`. -/
def filter_ad_events {β : Type} (ad_events : List (β × ℚ))
    (lower_theshold : WithBot ℚ) (upper_theshold : ℚ) : List β :=
  ad_events.filterMap
    (fun e =>
      if e.2 < upper_theshold ∧ lower_theshold < (e.2 : WithBot ℚ) then some e.1
      else none)

/-- One key's effect in `select_train_test_ad_events`: the state is
`(train_accepted_items, train_waitlist, test_accepted_items, yielded test
waitlist keys)`. -/
def selectUpdate (train_q1 train_q2 test_q1 test_q2 : ℚ)
    (st : ℕ × List ℚ × ℕ × List ℚ) (key : ℚ) : ℕ × List ℚ × ℕ × List ℚ :=
  let st1 :=
    if key < train_q2 then (st.1 + 1, st.2.1, st.2.2.1, st.2.2.2)
    else if key < train_q1 then (st.1, st.2.1 ++ [key], st.2.2.1, st.2.2.2)
    else st
  if key < test_q2 then (st1.1, st1.2.1, st1.2.2.1 + 1, st1.2.2.2)
  else if key < test_q1 then (st1.1, st1.2.1, st1.2.2.1, st1.2.2.2 ++ [key])
  else st1

/-- `select_train_test_ad_events`: one pass over the keys accumulating train
accepted count, train waitlist, test accepted count, and the yielded test
waitlist. -/
def select_train_test_ad_events (keys : List ℚ)
    (train_q1 train_q2 test_q1 test_q2 : ℚ) : ℕ × List ℚ × ℕ × List ℚ :=
  keys.foldl (selectUpdate train_q1 train_q2 test_q1 test_q2) (0, [], 0, [])

/-- `compute_acceptance_rejection_thresholds(num_waitlist_accepted, waitlist,
q1, q2)`: `(q1, q1)` when the waitlist is too short, the last two entries of
`nsmallest(num + 1, waitlist)` when `num > 0`, `(q2, q2)` otherwise. -/
def compute_acceptance_rejection_thresholds (num_waitlist_accepted : ℤ)
    (waitlist : List ℚ) (q1 q2 : ℚ) : ℚ × ℚ :=
  if (waitlist.length : ℤ) < num_waitlist_accepted then (q1, q1)
  else if 0 < num_waitlist_accepted then
    let sorted_waitlist := YelpSampling.nsmallest (num_waitlist_accepted.toNat + 1) waitlist
    (YelpSampling.pyLast sorted_waitlist 0, YelpSampling.pySecondLast sorted_waitlist 0)
  else (q2, q2)

end SrsSampling

namespace YelpSampling

/-! Basic evaluation lemmas. -/

theorem pyInt_natCast (n : ℕ) : pyInt (n : ℚ) = n := by
  unfold pyInt
  rw [if_neg (not_lt.mpr (by positivity)), Int.floor_natCast]

/-- With `delta = 1` both slack terms vanish and the thresholds collapse to
the sampling ratio itself; this makes the closed-form thresholds exactly
computable in the concrete scenarios below. -/
theorem compute_thresholds_delta_one (p N : ℝ) :
    _compute_thresholds p N 1 = (max 0 p, min 1 p) := by
  unfold _compute_thresholds
  norm_num [Real.log_one, Real.sqrt_zero]

/-- On natural-number (absolute) sizes the ratio/absolute conversion of
`_set_up_set_sizes` is the identity. -/
theorem convert_natSizes (sizes : List (String × ℕ)) (count : ℚ) :
    convertSizes (ofNatSizes sizes) count = ofNatSizes sizes := by
  unfold convertSizes ofNatSizes
  rw [List.map_map]
  apply List.map_congr_left
  intro p _
  simp only [Function.comp_apply]
  rcases Nat.eq_zero_or_pos p.2 with h | h
  · rw [h]
    norm_num
    have h0 := pyInt_natCast 0
    norm_num at h0
    rw [h0]
  · rw [if_neg (not_lt.mpr (by exact_mod_cast h)), pyInt_natCast]
    norm_num

theorem setUpSetSizes_natSizes (sizes : List (String × ℕ)) (count : ℚ)
    (repro : Bool) :
    _set_up_set_sizes (ofNatSizes sizes) count repro =
      if count < ((ofNatSizes sizes).map Prod.snd).sum then
        (if repro then
          some ((ofNatSizes sizes).map
            (fun p => (p.1, p.2 * count / ((ofNatSizes sizes).map Prod.snd).sum)))
        else none)
      else some (ofNatSizes sizes) := by
  unfold _set_up_set_sizes
  rw [convert_natSizes]

theorem sum_ofNatSizes (sizes : List (String × ℕ)) :
    ((ofNatSizes sizes).map Prod.snd).sum = (((sizes.map Prod.snd).sum : ℕ) : ℚ) := by
  unfold ofNatSizes
  induction sizes with
  | nil => simp
  | cons a l ih => simpa using ih

/-! Claim C6: the closed-form threshold formulas. -/

/-- C6: for every sampling ratio `p`, population size `N > 0` and error bound
`δ ∈ (0,1)`, `_compute_thresholds` returns exactly the pair
`(max 0 (p + γ2 − √(γ2² + 3γ2p)), min 1 (p + γ1 + √(γ1² + 2γ1p)))` with
`γ1 = −ln δ / N` and `γ2 = −(2 ln δ)/(3N)`. -/
theorem compute_thresholds_formula (ratio N δ : ℝ) (hN : 0 < N) (hδ0 : 0 < δ)
    (hδ1 : δ < 1) :
    _compute_thresholds ratio N δ =
      (max 0 (ratio + (-(2 * Real.log δ) / (3 * N)) -
          Real.sqrt ((-(2 * Real.log δ) / (3 * N)) ^ 2 +
            3 * (-(2 * Real.log δ) / (3 * N)) * ratio)),
        min 1 (ratio + (-Real.log δ / N) +
          Real.sqrt ((-Real.log δ / N) ^ 2 + 2 * (-Real.log δ / N) * ratio))) := rfl

/-- Witness for C6 at `ratio = 1/3`, `N = 10`, `δ = 1/2`. -/
theorem compute_thresholds_formula_witness :
    (0 : ℝ) < 10 ∧ (0 : ℝ) < 1 / 2 ∧ (1 / 2 : ℝ) < 1 ∧
      _compute_thresholds (1 / 3) 10 (1 / 2) =
        (max 0 ((1 / 3 : ℝ) + (-(2 * Real.log (1 / 2)) / (3 * 10)) -
            Real.sqrt ((-(2 * Real.log (1 / 2)) / (3 * 10)) ^ 2 +
              3 * (-(2 * Real.log (1 / 2)) / (3 * 10)) * (1 / 3))),
          min 1 ((1 / 3 : ℝ) + (-Real.log (1 / 2) / 10) +
            Real.sqrt ((-Real.log (1 / 2) / 10) ^ 2 +
              2 * (-Real.log (1 / 2) / 10) * (1 / 3)))) :=
  ⟨by norm_num, by norm_num, by norm_num,
    compute_thresholds_formula (1 / 3) 10 (1 / 2) (by norm_num) (by norm_num)
      (by norm_num)⟩

/-! Claim C5: there is no capacity check in `_get_initial_thresholds`. -/

theorem initialThresholdsGo_map_fst (count : ℚ) (delta : ℝ)
    (offset : ℝ) (set_sizes : List (String × ℚ)) :
    (initialThresholdsGo count delta offset set_sizes).map Prod.fst =
      set_sizes.map Prod.fst := by
  induction set_sizes generalizing offset with
  | nil => rfl
  | cons p rest ih => simp [initialThresholdsGo, ih]

/-- C5 counterexample: two sets each as large as the whole population with
`δ = 1` drive the cumulative offset to `2`; `_get_initial_thresholds`
raises nothing and returns a threshold triple reaching `2`, past the
`[0,1)` key space. -/
theorem initial_thresholds_no_capacity_check :
    _get_initial_thresholds [("a", 2), ("b", 2)] 2 1 =
        [("a", 0, 1, 1), ("b", 1, 2, 2)] ∧ (1 : ℝ) < 2 := by
  constructor
  · unfold _get_initial_thresholds
    norm_num [initialThresholdsGo, compute_thresholds_delta_one]
  · norm_num

/-- C5 amended: `_get_initial_thresholds` performs no capacity check and
never fails; whatever the requested sizes, it returns exactly one threshold
triple per set (in order), even when the cumulative offsets run past `1`. -/
theorem initial_thresholds_total (set_sizes : List (String × ℚ)) (count : ℚ)
    (delta : ℝ) :
    (_get_initial_thresholds set_sizes count delta).map Prod.fst =
      set_sizes.map Prod.fst :=
  initialThresholdsGo_map_fst count delta 0 set_sizes

/-! Claim C4: the oversubscription error and its propagation. -/

/-- C4: on absolute (natural-number) target sizes, the two-pass pipeline
fails (the normalizer's `ValueError`, surfaced to the caller with no partial
result) exactly when the sizes sum to more than the population size and
reproportioning is disabled. -/
theorem scalable_srs_none_iff {β : Type} (keyed : ℤ → List (β × ℝ))
    (sizes : List (String × ℕ)) (count : ℚ) (delta : ℝ) (seed : Option ℤ)
    (clock : ℚ) (repro : Bool) :
    scalable_srs keyed (ofNatSizes sizes) count delta seed clock repro = none ↔
      count < (((sizes.map Prod.snd).sum : ℕ) : ℚ) ∧ repro = false := by
  have hs : scalable_srs keyed (ofNatSizes sizes) count delta seed clock repro = none ↔
      _set_up_set_sizes (ofNatSizes sizes) count repro = none := by
    cases h : _set_up_set_sizes (ofNatSizes sizes) count repro <;>
      simp [scalable_srs, h]
  rw [hs, setUpSetSizes_natSizes, sum_ofNatSizes]
  split_ifs with h1 h2
  · exact iff_of_false (by simp) (fun hc => by rw [h2] at hc; exact absurd hc.2 (by simp))
  · exact iff_of_true rfl ⟨h1, Bool.eq_false_iff.mpr h2⟩
  · exact iff_of_false (by simp) (fun hc => h1 hc.1)

/-! Claim C9: seed handling in `scalable_srs`. -/

/-- C9 counterexample: with the caller-supplied seed `0` the pipeline keys
its rows from the wall-clock-derived seed `42`, not from `0` — the dataset
here exposes the resolved seed as its only row, and the output row is `42`. -/
theorem seed_zero_replaced_by_clock :
    scalable_srs (fun s => [(s, (0 : ℝ))]) (ofNatSizes [("a", 1)]) 1 1
        (some 0) 42 false = some [("a", 42)] ∧ (42 : ℤ) ≠ 0 := by
  constructor
  · have hseed : resolveSeed (some 0) 42 = 42 := by
      have h := pyInt_natCast 42
      norm_num at h
      simp [resolveSeed, h]
    rw [scalable_srs, hseed, setUpSetSizes_natSizes]
    norm_num [ofNatSizes, _get_initial_thresholds, initialThresholdsGo,
      compute_thresholds_delta_one, _threshold_accumulator, accumUpdate,
      _get_final_thresholds, finalFor, List.lookup, _threshold_mapper,
      mapRecord, List.filterMap_cons]
  · norm_num

/-- C9 amended: any nonzero caller-supplied seed is threaded unchanged into
both passes (the pipeline never consults the clock: its output is
clock-independent), while a missing seed falls back to the wall-clock value;
but the seed `0`, being falsy in Python, is also replaced by the clock. -/
theorem seed_threading (β : Type) (keyed : ℤ → List (β × ℝ))
    (set_sizes : List (String × ℚ)) (count : ℚ) (delta : ℝ)
    (clock clock' : ℚ) (repro : Bool) (s : ℤ) (hs : s ≠ 0) :
    resolveSeed (some s) clock = s ∧ resolveSeed none clock = pyInt clock ∧
      scalable_srs keyed set_sizes count delta (some s) clock repro =
        scalable_srs keyed set_sizes count delta (some s) clock' repro := by
  refine ⟨by simp [resolveSeed, hs], rfl, ?_⟩
  simp [scalable_srs, resolveSeed, hs]

/-- Witness for C9's amended theorem at seed `5`. -/
theorem seed_threading_witness :
    (5 : ℤ) ≠ 0 ∧
      (resolveSeed (some 5) 3 = 5 ∧ resolveSeed none 3 = pyInt 3 ∧
        scalable_srs (fun _ => ([] : List (Unit × ℝ))) [] 1 1 (some 5) 3 false =
          scalable_srs (fun _ => ([] : List (Unit × ℝ))) [] 1 1 (some 5) 7 false) :=
  ⟨by decide,
    seed_threading Unit (fun _ => []) [] 1 1 3 7 false 5 (by decide)⟩

/-! Order statistics of the sorted waitlist, used by the C3 and C1 claims. -/

theorem nsmallest_last {α : Type} [LinearOrder α] (W : List α) (r : ℕ) (d : α)
    (h : r < W.length) :
    pyLast (nsmallest (r + 1) W) d = (W.insertionSort (· ≤ ·)).getD r d := by
  have hlen : (W.insertionSort (· ≤ ·)).length = W.length := List.length_insertionSort _ W
  have hr : r < (W.insertionSort (· ≤ ·)).length := by omega
  have hlt : (nsmallest (r + 1) W).length = r + 1 := by
    simp only [nsmallest, List.length_take]
    omega
  rw [pyLast, hlt]
  simp only [Nat.add_sub_cancel, nsmallest]
  rw [List.getD_eq_getElem _ _ (by simp [nsmallest] at hlt ⊢; omega),
    List.getD_eq_getElem _ _ hr]
  rw [List.getElem_take]

theorem countP_lt_get_sorted {α : Type} [LinearOrder α] (S : List α)
    (hS : S.Sorted (· < ·)) (r : ℕ) (h : r < S.length) :
    S.countP (fun x => decide (x < S.get ⟨r, h⟩)) = r := by
  induction S generalizing r with
  | nil => simp at h
  | cons x S ih =>
    rcases List.sorted_cons.mp hS with ⟨hx, hS'⟩
    cases r with
    | zero =>
      rw [List.countP_eq_zero]
      intro a ha
      simp only [List.get] at *
      rcases List.mem_cons.mp ha with rfl | ha'
      · simp
      · simp only [decide_eq_true_eq]
        exact not_lt.mpr (le_of_lt (hx a ha'))
    | succ r =>
      have hr : r < S.length := by simpa using h
      rw [List.countP_cons]
      have hget : (x :: S).get ⟨r + 1, h⟩ = S.get ⟨r, hr⟩ := rfl
      rw [hget, ih hS' r hr, if_pos]
      simp only [decide_eq_true_eq]
      exact hx _ (S.get_mem r hr)

/-- A duplicate-free list sorts into a strictly sorted list. -/
theorem insertionSort_sorted_lt {α : Type} [LinearOrder α] (W : List α)
    (hnd : W.Nodup) : (W.insertionSort (· ≤ ·)).Sorted (· < ·) :=
  List.Sorted.lt_of_le (List.sorted_insertionSort _ W)
    ((List.perm_insertionSort _ W).nodup_iff.mpr hnd)

/-- For a duplicate-free waitlist `W` and `r < W.length`, exactly `r`
elements of `W` lie strictly below the `(r+1)`-th smallest element. -/
theorem countP_lt_orderStat {α : Type} [LinearOrder α] (W : List α) (r : ℕ)
    (d : α) (hnd : W.Nodup) (h : r < W.length) :
    W.countP (fun x => decide (x < (W.insertionSort (· ≤ ·)).getD r d)) = r := by
  have hlen : (W.insertionSort (· ≤ ·)).length = W.length := List.length_insertionSort _ W
  have hr : r < (W.insertionSort (· ≤ ·)).length := by omega
  have hq : (W.insertionSort (· ≤ ·)).getD r d = (W.insertionSort (· ≤ ·)).get ⟨r, hr⟩ :=
    List.getD_eq_get _ _ hr
  rw [hq, ← (List.perm_insertionSort (· ≤ ·) W).countP_eq]
  exact countP_lt_get_sorted _ (insertionSort_sorted_lt W hnd) r hr

/-! Claim C3: the mid-waitlist cutoff of `_get_final_thresholds`. -/

/-- C3: when `0 < required < len(waitlist)` and the waitlisted keys are
pairwise distinct, `_get_final_thresholds` picks as cutoff the
`(required+1)`-th smallest waitlisted key, and exactly `required` waitlisted
keys lie strictly below it. -/
theorem final_thresholds_order_statistic (name : String) (s A : ℕ)
    (W : List ℚ) (l a c : ℚ) (hnd : W.Nodup) (hlt : A < s)
    (hlen : s - A < W.length) :
    _get_final_thresholds [(name, (A, W))] [(name, ((s : ℕ) : ℚ))]
          [(name, (l, a, c))] =
        [(name, (l, (W.insertionSort (· ≤ ·)).getD (s - A) 0))] ∧
      W.countP
          (fun k => decide (k < (W.insertionSort (· ≤ ·)).getD (s - A) 0)) =
        s - A := by
  have hcast : ((s : ℚ)) - ((A : ℕ) : ℚ) = (((s - A : ℕ) : ℕ) : ℚ) := by
    push_cast [Nat.cast_sub hlt.le]
    ring
  constructor
  · simp only [_get_final_thresholds, List.map_cons, List.map_nil, List.lookup,
      beq_self_eq_true, if_pos, Option.getD_some, finalFor]
    rw [hcast]
    rw [if_neg (not_le.mpr (by exact_mod_cast Nat.pos_of_ne_zero (by omega))),
      if_neg (not_le.mpr (by exact_mod_cast hlen))]
    have hfloor : (⌊((s - A : ℕ) : ℚ)⌋).toNat = s - A := by
      rw [Int.floor_natCast, Int.toNat_natCast]
    rw [hfloor, nsmallest_last W (s - A) 0 hlen]
  · exact countP_lt_orderStat W (s - A) 0 hnd hlen

/-- Witness for C3: `s = 2` accepted-target, `A = 1` already accepted,
waitlist `[3, 1, 2]`; the cutoff is the 2nd smallest key `2`, with exactly
one key below it. -/
theorem final_thresholds_order_statistic_witness :
    ([(3 : ℚ), 1, 2].Nodup ∧ 1 < 2 ∧ 2 - 1 < [(3 : ℚ), 1, 2].length) ∧
      (_get_final_thresholds [("a", (1, [(3 : ℚ), 1, 2]))] [("a", ((2 : ℕ) : ℚ))]
            [("a", ((0 : ℚ), 100, 200))] =
          [("a", ((0 : ℚ), ([(3 : ℚ), 1, 2].insertionSort (· ≤ ·)).getD (2 - 1) 0))] ∧
        [(3 : ℚ), 1, 2].countP
            (fun k =>
              decide (k < ([(3 : ℚ), 1, 2].insertionSort (· ≤ ·)).getD (2 - 1) 0)) =
          2 - 1) :=
  ⟨⟨by decide, by decide, by decide⟩,
    final_thresholds_order_statistic "a" 2 1 [3, 1, 2] 0 100 200 (by decide)
      (by decide) (by decide)⟩

/-! Claim C7: size normalization. -/

/-- C7 counterexample: the normalizer truncates ratios toward zero rather
than rounding — for the ratio `1/4` on a population of `10` it produces the
absolute size `2`, while `round((1/4) * 10) = 3`. -/
theorem set_up_set_sizes_truncates :
    _set_up_set_sizes [("a", 1 / 4)] 10 false = some [("a", 2)] ∧
      round ((1 / 4 : ℚ) * 10) = 3 := by
  constructor
  · norm_num [_set_up_set_sizes, convertSizes, pyInt]
  · rw [round_eq]
    norm_num

/-- The reproportioned sizes sum to exactly the population. -/
theorem sum_map_scaled (l : List (String × ℚ)) (c S : ℚ) (hS : S ≠ 0)
    (hsum : (l.map Prod.snd).sum = S) :
    ((l.map (fun p => (p.1, p.2 * c / S))).map Prod.snd).sum ≤ c := by
  have key : ∀ (m : List (String × ℚ)),
      ((m.map (fun p => (p.1, p.2 * c / S))).map Prod.snd).sum =
        (m.map Prod.snd).sum * c / S := by
    intro m
    induction m with
    | nil => simp
    | cons a m ih =>
      simp only [List.map_cons, List.sum_cons, ih, add_div, add_mul]
  rw [key, hsum]
  exact le_of_eq (by field_simp [mul_comm])

/-- C7 amended: each entry `< 1.0` becomes `int(size * N)` (truncation
toward zero) and each entry `≥ 1.0` becomes `int(size)`; when the converted
sizes sum to at most `N` they are returned unchanged, when they oversubscribe
and reproportioning is enabled every size is scaled by `N / sum` (yielding
possibly non-integral sizes); any successful result sums to at most `N`. -/
theorem set_up_set_sizes_spec (sets : List (String × ℚ)) (count : ℚ)
    (repro : Bool) (hc : 0 ≤ count) :
    (((convertSizes sets count).map Prod.snd).sum ≤ count →
        _set_up_set_sizes sets count repro = some (convertSizes sets count)) ∧
      (count < ((convertSizes sets count).map Prod.snd).sum → repro = true →
        _set_up_set_sizes sets count repro =
          some ((convertSizes sets count).map
            (fun p => (p.1, p.2 * count / ((convertSizes sets count).map Prod.snd).sum)))) ∧
      (∀ out, _set_up_set_sizes sets count repro = some out →
        (out.map Prod.snd).sum ≤ count) := by
  refine ⟨?_, ?_, ?_⟩
  · intro h
    unfold _set_up_set_sizes
    rw [if_neg (not_lt.mpr h)]
  · intro h hr
    unfold _set_up_set_sizes
    rw [if_pos h, hr, if_pos rfl]
  · intro out hout
    unfold _set_up_set_sizes at hout
    by_cases h : count < ((convertSizes sets count).map Prod.snd).sum
    · rw [if_pos h] at hout
      cases hr : repro with
      | false => rw [hr] at hout; simp at hout
      | true =>
        rw [hr, if_pos rfl] at hout
        have hout' := Option.some.inj hout
        subst hout'
        have hS : ((convertSizes sets count).map Prod.snd).sum ≠ 0 :=
          ne_of_gt (lt_of_le_of_lt hc h)
        exact sum_map_scaled _ count _ hS rfl
    · rw [if_neg h] at hout
      have hout' := Option.some.inj hout
      subst hout'
      exact not_lt.mp h

/-- Witness for C7's amended theorem: `{"a": 2, "b": 2}` on population `1`
with reproportioning. -/
theorem set_up_set_sizes_spec_witness :
    (0 : ℚ) ≤ 1 ∧
      ((((convertSizes [("a", 2), ("b", 2)] 1).map Prod.snd).sum ≤ 1 →
          _set_up_set_sizes [("a", 2), ("b", 2)] 1 true =
            some (convertSizes [("a", 2), ("b", 2)] 1)) ∧
        (1 < ((convertSizes [("a", 2), ("b", 2)] 1).map Prod.snd).sum → true = true →
          _set_up_set_sizes [("a", 2), ("b", 2)] 1 true =
            some ((convertSizes [("a", 2), ("b", 2)] 1).map
              (fun p =>
                (p.1, p.2 * 1 / ((convertSizes [("a", 2), ("b", 2)] 1).map Prod.snd).sum)))) ∧
        (∀ out, _set_up_set_sizes [("a", 2), ("b", 2)] 1 true = some out →
          (out.map Prod.snd).sum ≤ 1)) :=
  ⟨by norm_num, set_up_set_sizes_spec [("a", 2), ("b", 2)] 1 true (by norm_num)⟩

/-! Claim C10: the two-set train/test variant of `srs_sampling.py`. -/

/-- C10: train and test membership are independent comparisons of the same
record key; with thresholds produced by
`compute_acceptance_rejection_thresholds` (train upper cutoff `4` and the
test lower cutoff `2` coming from one call, the test upper cutoff `10` from
the other), the single record `0` with key `3` passes both the train output
filter `(-inf, 4)` and the test output filter `(2, 10)`, and a single key
(`1`) is accepted by both the train and test predicates of
`select_train_test_ad_events`. -/
theorem train_test_filters_overlap :
    SrsSampling.compute_acceptance_rejection_thresholds 1 [2, 4, 6] 10 2 = (4, 2) ∧
      SrsSampling.compute_acceptance_rejection_thresholds 1 [8, 10, 12] 15 4 = (10, 8) ∧
      SrsSampling.filter_ad_events [((0 : ℕ), (3 : ℚ))] ⊥ 4 = [0] ∧
      SrsSampling.filter_ad_events [((0 : ℕ), (3 : ℚ))] ((2 : ℚ) : WithBot ℚ) 10 = [0] ∧
      SrsSampling.select_train_test_ad_events [1] 10 2 15 4 = (1, [], 1, []) := by
  refine ⟨by decide, by decide, ?_, ?_, by decide⟩
  · norm_num [SrsSampling.filter_ad_events, List.filterMap_cons]
  · simp only [SrsSampling.filter_ad_events, List.filterMap_cons,
      List.filterMap_nil]
    decide

/-! Structural facts about the initial thresholds, used by C2 and C1. -/

/-- For a valid configuration (`0 ≤ δ ≤ 1`, nonnegative ratio, nonnegative
population) the waitlist cutoff `q_high` is nonnegative. -/
theorem compute_thresholds_snd_nonneg (p N δ : ℝ) (hp : 0 ≤ p) (hN : 0 ≤ N)
    (hδ0 : 0 ≤ δ) (hδ1 : δ ≤ 1) : 0 ≤ (_compute_thresholds p N δ).2 := by
  unfold _compute_thresholds
  have hγ : 0 ≤ -Real.log δ / N :=
    div_nonneg (neg_nonneg.mpr (Real.log_nonpos hδ0 hδ1)) hN
  exact le_min (by norm_num)
    (add_nonneg (add_nonneg hp hγ) (Real.sqrt_nonneg _))

/-- `q_low ≤ p`: the acceptance cutoff never exceeds the sampling ratio. -/
theorem compute_thresholds_fst_le (p N δ : ℝ) (hp : 0 ≤ p) (hN : 0 ≤ N)
    (hδ0 : 0 ≤ δ) (hδ1 : δ ≤ 1) : (_compute_thresholds p N δ).1 ≤ p := by
  unfold _compute_thresholds
  have hγ : 0 ≤ -(2 * Real.log δ) / (3 * N) := by
    apply div_nonneg _ (by linarith)
    have := Real.log_nonpos hδ0 hδ1
    linarith
  have hsq : -(2 * Real.log δ) / (3 * N) ≤
      Real.sqrt ((-(2 * Real.log δ) / (3 * N)) ^ 2 +
        3 * (-(2 * Real.log δ) / (3 * N)) * p) := by
    rw [show (-(2 * Real.log δ) / (3 * N)) = Real.sqrt ((-(2 * Real.log δ) / (3 * N)) ^ 2)
      from (Real.sqrt_sq hγ).symm]
    rw [Real.sqrt_sq hγ]
    nth_rewrite 1 [← Real.sqrt_sq hγ]
    apply Real.sqrt_le_sqrt
    nlinarith
  simp only
  exact max_le (by linarith) (by linarith)

/-- `p ≤ q_high` when `p ≤ 1`: the waitlist cutoff covers the ratio. -/
theorem compute_thresholds_le_snd (p N δ : ℝ) (hp : 0 ≤ p) (hp1 : p ≤ 1)
    (hN : 0 ≤ N) (hδ0 : 0 ≤ δ) (hδ1 : δ ≤ 1) :
    p ≤ (_compute_thresholds p N δ).2 := by
  unfold _compute_thresholds
  have hγ : 0 ≤ -Real.log δ / N :=
    div_nonneg (neg_nonneg.mpr (Real.log_nonpos hδ0 hδ1)) hN
  refine le_min hp1 ?_
  have hs := Real.sqrt_nonneg ((-Real.log δ / N) ^ 2 + 2 * (-Real.log δ / N) * p)
  linarith

/-- Every threshold triple generated from offset `offset` has its lower bound
at or above `offset`. -/
theorem go_low_ge (count : ℚ) (delta : ℝ) (hδ0 : 0 ≤ delta) (hδ1 : delta ≤ 1)
    (hc : 0 < count) (set_sizes : List (String × ℚ))
    (hsz : ∀ p ∈ set_sizes, 0 ≤ p.2) :
    ∀ offset : ℝ, ∀ t ∈ initialThresholdsGo count delta offset set_sizes,
      offset ≤ t.2.1 := by
  induction set_sizes with
  | nil => intro offset t ht; simp [initialThresholdsGo] at ht
  | cons p rest ih =>
    intro offset t ht
    have hq : 0 ≤ (_compute_thresholds ((p.2 : ℝ) / (count : ℝ)) (count : ℝ) delta).2 := by
      apply compute_thresholds_snd_nonneg _ _ _ _ (by positivity) hδ0 hδ1
      apply div_nonneg _ (by positivity)
      exact_mod_cast hsz p (List.mem_cons_self p rest)
    rcases List.mem_cons.mp ht with rfl | ht'
    · exact le_refl _
    · have := ih (fun q hq => hsz q (List.mem_cons_of_mem p hq))
        (offset + (_compute_thresholds ((p.2 : ℝ) / (count : ℝ)) (count : ℝ) delta).2) t ht'
      linarith

/-- The threshold triples are produced in increasing key-space order: every
earlier triple's waitlist cutoff is at most every later triple's lower
bound. -/
theorem go_pairwise_ordered (count : ℚ) (delta : ℝ) (hδ0 : 0 ≤ delta)
    (hδ1 : delta ≤ 1) (hc : 0 < count) (set_sizes : List (String × ℚ))
    (hsz : ∀ p ∈ set_sizes, 0 ≤ p.2) :
    ∀ offset : ℝ, (initialThresholdsGo count delta offset set_sizes).Pairwise
      (fun t u => t.2.2.2 ≤ u.2.1) := by
  induction set_sizes with
  | nil => intro offset; simp [initialThresholdsGo]
  | cons p rest ih =>
    intro offset
    rw [initialThresholdsGo]
    refine List.Pairwise.cons ?_ (ih (fun q hq => hsz q (List.mem_cons_of_mem p hq)) _)
    intro u hu
    exact go_low_ge count delta hδ0 hδ1 hc rest
      (fun q hq => hsz q (List.mem_cons_of_mem p hq)) _ u hu

/-! Claim C2: disjointness of the per-set intervals, and the mapper's
at-most-one-set guarantee. -/

/-- C2: for a valid multi-set configuration the `[low, waitlistCutoff)`
intervals of `_get_initial_thresholds` are pairwise disjoint, and
`_threshold_mapper` emits any given record under at most one set name. -/
theorem record_at_most_one_set {β : Type} (set_sizes : List (String × ℚ))
    (count : ℚ) (delta : ℝ) (hc : 0 < count) (hδ0 : 0 ≤ delta)
    (hδ1 : delta ≤ 1) (hsz : ∀ p ∈ set_sizes, 0 ≤ p.2) :
    (_get_initial_thresholds set_sizes count delta).Pairwise
        (fun t u => ∀ k : ℝ,
          t.2.1 ≤ k ∧ k < t.2.2.2 → ¬(u.2.1 ≤ k ∧ k < u.2.2.2)) ∧
      ∀ (ft : List (String × ℝ × ℝ)) (r : β) (k : ℝ),
        (_threshold_mapper ft [(r, k)]).length ≤ 1 := by
  constructor
  · apply List.Pairwise.imp _
      (go_pairwise_ordered count delta hδ0 hδ1 hc set_sizes hsz 0)
    intro t u hle k hk hk'
    exact absurd (lt_of_lt_of_le hk.2 (le_trans hle hk'.1)) (lt_irrefl k)
  · intro ft r k
    unfold _threshold_mapper
    rw [List.filterMap_cons]
    cases mapRecord (r, k) ft <;> simp

/-- Witness for C2 on `{"a": 1, "b": 1}` over a population of `2` with
`δ = 1`. -/
theorem record_at_most_one_set_witness :
    ((0 : ℚ) < 2 ∧ (0 : ℝ) ≤ 1 ∧ (1 : ℝ) ≤ 1 ∧
        (∀ p ∈ [("a", (1 : ℚ)), ("b", 1)], 0 ≤ p.2)) ∧
      ((_get_initial_thresholds [("a", (1 : ℚ)), ("b", 1)] 2 1).Pairwise
          (fun t u => ∀ k : ℝ,
            t.2.1 ≤ k ∧ k < t.2.2.2 → ¬(u.2.1 ≤ k ∧ k < u.2.2.2)) ∧
        ∀ (ft : List (String × ℝ × ℝ)) (r : ℕ) (k : ℝ),
          (_threshold_mapper ft [(r, k)]).length ≤ 1) :=
  ⟨⟨by norm_num, by norm_num, le_refl 1, by decide⟩,
    record_at_most_one_set [("a", 1), ("b", 1)] 2 1 (by norm_num) (by norm_num)
      (le_refl 1) (by decide)⟩

/-! Association-list lemmas for the tally dictionaries (claim C8). -/

theorem lookup_cons_self {γ : Type} (q : String × γ) (l : List (String × γ)) :
    ((q :: l).lookup q.1) = some q.2 := by
  simp [List.lookup]

theorem lookup_cons_ne {γ : Type} (q : String × γ) (l : List (String × γ))
    (n : String) (h : n ≠ q.1) : ((q :: l).lookup n) = l.lookup n := by
  simp only [List.lookup]
  rw [beq_eq_false_iff_ne.mpr h]

theorem lookup_isSome_iff {γ : Type} (l : List (String × γ)) (n : String) :
    (l.lookup n).isSome = true ↔ n ∈ l.map Prod.fst := by
  induction l with
  | nil => simp [List.lookup]
  | cons q l ih =>
    by_cases h : n = q.1
    · subst h
      simp [lookup_cons_self]
    · rw [lookup_cons_ne q l n h]
      simp [ih, h]

theorem lookup_eq_none_iff {γ : Type} (l : List (String × γ)) (n : String) :
    l.lookup n = none ↔ ¬ n ∈ l.map Prod.fst := by
  rw [← lookup_isSome_iff]
  cases l.lookup n <;> simp

theorem lookup_append {γ : Type} (l l' : List (String × γ)) (n : String) :
    (l ++ l').lookup n =
      match l.lookup n with
      | some v => some v
      | none => l'.lookup n := by
  induction l with
  | nil => simp [List.lookup]
  | cons q l ih =>
    by_cases h : n = q.1
    · subst h
      rw [List.cons_append, lookup_cons_self, lookup_cons_self]
    · rw [List.cons_append, lookup_cons_ne q _ n h, lookup_cons_ne q _ n h, ih]

theorem lookup_map_update {γ : Type} (a : List (String × γ)) (nm : String)
    (g : γ → γ) (n : String) :
    (a.map (fun q => if q.1 = nm then (q.1, g q.2) else q)).lookup n =
      if n = nm then (a.lookup n).map g else a.lookup n := by
  induction a with
  | nil => split <;> rfl
  | cons q a ih =>
    simp only [List.map_cons]
    by_cases hn : n = q.1
    · by_cases hq : q.1 = nm
      · rw [if_pos hq]
        have hnm : n = nm := hn.trans hq
        rw [if_pos hnm]
        have hl : ((q.1, g q.2) :: a.map (fun q => if q.1 = nm then (q.1, g q.2) else q)).lookup n
            = some (g q.2) := by
          rw [hn]
          exact lookup_cons_self ⟨q.1, g q.2⟩ _
        rw [hl, hn, lookup_cons_self q]
        rfl
      · rw [if_neg hq]
        have hnm : ¬ n = nm := fun hc => hq (hn.symm.trans hc)
        rw [if_neg hnm, hn, lookup_cons_self q, lookup_cons_self q]
    · have h2 : n ≠ (if q.1 = nm then ((q.1, g q.2) : String × γ) else q).1 := by
        split <;> exact hn
      rw [lookup_cons_ne _ _ n h2, ih, lookup_cons_ne q a n hn]

theorem keys_map_update {γ : Type} (a : List (String × γ)) (nm : String)
    (g : γ → γ) :
    (a.map (fun q => if q.1 = nm then (q.1, g q.2) else q)).map Prod.fst =
      a.map Prod.fst := by
  rw [List.map_map]
  apply List.map_congr_left
  intro q _
  by_cases h : q.1 = nm <;> simp [h]

theorem keys_reducerStep {α : Type} (a : List (String × ℕ × List α))
    (p : String × ℕ × List α) :
    (reducerStep a p).map Prod.fst =
      if (a.lookup p.1).isSome then a.map Prod.fst
      else a.map Prod.fst ++ [p.1] := by
  unfold reducerStep
  by_cases h : (a.lookup p.1).isSome
  · rw [if_pos h, if_pos h, keys_map_update a p.1 (fun v => addValue v p.2)]
  · rw [if_neg h, if_neg h]
    simp

theorem nodup_keys_reducerStep {α : Type} (a : List (String × ℕ × List α))
    (p : String × ℕ × List α) (ha : (a.map Prod.fst).Nodup) :
    ((reducerStep a p).map Prod.fst).Nodup := by
  rw [keys_reducerStep]
  by_cases h : (a.lookup p.1).isSome
  · rw [if_pos h]; exact ha
  · rw [if_neg h]
    have hp : ¬ p.1 ∈ a.map Prod.fst := by
      rw [← lookup_isSome_iff]
      simpa using h
    simp [List.nodup_append, ha, hp]

theorem lookup_merge {α : Type} (b : List (String × ℕ × List α)) :
    ∀ a : List (String × ℕ × List α), (a.map Prod.fst).Nodup →
      (b.map Prod.fst).Nodup → ∀ n,
      (_dict_addition_reducer a b).lookup n =
        match a.lookup n, b.lookup n with
        | some v, o => some (combineOpt v o)
        | none, o => o := by
  induction b with
  | nil =>
    intro a ha hb n
    show a.lookup n = _
    cases h : a.lookup n <;> simp [combineOpt]
  | cons p b ih =>
    intro a ha hb n
    have hb' : (b.map Prod.fst).Nodup := by
      rw [List.map_cons] at hb
      exact hb.of_cons
    have hpb : ¬ p.1 ∈ b.map Prod.fst := by
      rw [List.map_cons] at hb
      exact (List.nodup_cons.mp hb).1
    have hstep : _dict_addition_reducer a (p :: b) =
        _dict_addition_reducer (reducerStep a p) b := rfl
    rw [hstep, ih (reducerStep a p) (nodup_keys_reducerStep a p ha) hb' n]
    by_cases hn : n = p.1
    · have hbn : b.lookup n = none := by
        rw [lookup_eq_none_iff, hn]
        exact hpb
      have hpn : (p :: b).lookup n = some p.2 := by
        rw [hn]
        exact lookup_cons_self p b
      rw [hbn, hpn]
      by_cases hp : (a.lookup p.1).isSome
      · rcases Option.isSome_iff_exists.mp hp with ⟨v, hv⟩
        have hlk : (reducerStep a p).lookup n = some (addValue v p.2) := by
          unfold reducerStep
          rw [if_pos hp, lookup_map_update a p.1 (fun v => addValue v p.2) n,
            if_pos hn, hn, hv]
          rfl
        rw [hlk, hn, hv]
        rfl
      · have han : a.lookup n = none := by
          rw [hn]
          exact Option.not_isSome_iff_eq_none.mp hp
        have hlk : (reducerStep a p).lookup n = some p.2 := by
          unfold reducerStep
          rw [if_neg hp, lookup_append, han]
          rw [hn]
          exact lookup_cons_self p []
        rw [hlk, han]
        rfl
    · have hpn : (p :: b).lookup n = b.lookup n := lookup_cons_ne p b n hn
      rw [hpn]
      by_cases hp : (a.lookup p.1).isSome
      · have hlk : (reducerStep a p).lookup n = a.lookup n := by
          unfold reducerStep
          rw [if_pos hp, lookup_map_update a p.1 (fun v => addValue v p.2) n,
            if_neg hn]
        rw [hlk]
      · have hlk : (reducerStep a p).lookup n = a.lookup n := by
          unfold reducerStep
          rw [if_neg hp, lookup_append]
          have h1 : ([p] : List (String × ℕ × List α)).lookup n = none := by
            rw [lookup_eq_none_iff]
            simpa using hn
          rw [h1]
          cases h : a.lookup n <;> rfl
        rw [hlk]

theorem keys_merge {α : Type} (b : List (String × ℕ × List α)) :
    ∀ a : List (String × ℕ × List α), (a.map Prod.fst).Nodup →
      (b.map Prod.fst).Nodup →
      (_dict_addition_reducer a b).map Prod.fst =
        a.map Prod.fst ++
          (b.map Prod.fst).filter (fun n => decide (¬ n ∈ a.map Prod.fst)) := by
  induction b with
  | nil => intro a ha hb; simp [_dict_addition_reducer]
  | cons p b ih =>
    intro a ha hb
    have hb' : (b.map Prod.fst).Nodup := by
      rw [List.map_cons] at hb
      exact hb.of_cons
    have hpb : ¬ p.1 ∈ b.map Prod.fst := by
      rw [List.map_cons] at hb
      exact (List.nodup_cons.mp hb).1
    have hstep : _dict_addition_reducer a (p :: b) =
        _dict_addition_reducer (reducerStep a p) b := rfl
    rw [hstep, ih (reducerStep a p) (nodup_keys_reducerStep a p ha) hb',
      keys_reducerStep]
    by_cases hp : (a.lookup p.1).isSome
    · have hmem : p.1 ∈ a.map Prod.fst := (lookup_isSome_iff a p.1).mp hp
      rw [if_pos hp, List.map_cons, List.filter_cons]
      have hdec : (decide (¬ p.1 ∈ a.map Prod.fst)) = false := by simpa using hmem
      rw [hdec]
      simp only [Bool.false_eq_true, if_false]
    · have hmem : ¬ p.1 ∈ a.map Prod.fst := by
        rw [← lookup_isSome_iff]
        simpa using hp
      rw [if_neg hp, List.map_cons, List.filter_cons]
      have hdec : (decide (¬ p.1 ∈ a.map Prod.fst)) = true := by simpa using hmem
      rw [hdec]
      simp only [if_true]
      have hfc : ∀ x ∈ b.map Prod.fst,
          (decide (¬ x ∈ a.map Prod.fst ++ [p.1])) =
            (decide (¬ x ∈ a.map Prod.fst)) := by
        intro x hx
        have hxp : x ≠ p.1 := fun hc => hpb (hc ▸ hx)
        simp [List.mem_append, hxp]
      rw [List.filter_congr hfc, List.append_assoc]
      rfl

theorem mem_keys_merge {α : Type} (a b : List (String × ℕ × List α))
    (ha : (a.map Prod.fst).Nodup) (hb : (b.map Prod.fst).Nodup) (n : String) :
    n ∈ (_dict_addition_reducer a b).map Prod.fst ↔
      n ∈ a.map Prod.fst ∨ n ∈ b.map Prod.fst := by
  rw [keys_merge b a ha hb]
  simp only [List.mem_append, List.mem_filter, decide_eq_true_eq]
  constructor
  · rintro (h | ⟨h, _⟩)
    · exact Or.inl h
    · exact Or.inr h
  · rintro (h | h)
    · exact Or.inl h
    · by_cases h2 : n ∈ a.map Prod.fst
      · exact Or.inl h2
      · exact Or.inr ⟨h, by simpa using h2⟩

theorem nodup_keys_merge {α : Type} (a b : List (String × ℕ × List α))
    (ha : (a.map Prod.fst).Nodup) (hb : (b.map Prod.fst).Nodup) :
    ((_dict_addition_reducer a b).map Prod.fst).Nodup := by
  rw [keys_merge b a ha hb]
  rw [List.nodup_append]
  refine ⟨ha, (hb.filter _), ?_⟩
  intro x hx hx'
  rcases List.mem_filter.mp hx' with ⟨_, hdec⟩
  have h3 : ¬ x ∈ a.map Prod.fst := by simpa using hdec
  exact h3 hx

theorem alist_ext {γ : Type} :
    ∀ (x y : List (String × γ)), x.map Prod.fst = y.map Prod.fst →
      (x.map Prod.fst).Nodup → (∀ n, x.lookup n = y.lookup n) → x = y := by
  intro x
  induction x with
  | nil =>
    intro y hk _ _
    have h0 : y.map Prod.fst = [] := by simpa using hk.symm
    exact (List.map_eq_nil_iff.mp h0).symm
  | cons q x ih =>
    intro y hk hnd hlk
    cases y with
    | nil => simp at hk
    | cons r y =>
      simp only [List.map_cons, List.cons.injEq] at hk
      rcases hk with ⟨hqr, hk'⟩
      have hv : q.2 = r.2 := by
        have h1 := hlk q.1
        rw [lookup_cons_self q x] at h1
        have h2 : (r :: y).lookup q.1 = some r.2 := by
          rw [hqr]
          exact lookup_cons_self r y
        rw [h2] at h1
        exact Option.some.inj h1
      have hq : q = r := Prod.ext hqr hv
      have hnd' : (x.map Prod.fst).Nodup := (List.nodup_cons.mp hnd).2
      have hqx : ¬ q.1 ∈ x.map Prod.fst := (List.nodup_cons.mp hnd).1
      have hlk' : ∀ n, x.lookup n = y.lookup n := by
        intro n
        by_cases hn : n = q.1
        · have hx : x.lookup n = none := by
            rw [lookup_eq_none_iff, hn]
            exact hqx
          have hy : y.lookup n = none := by
            rw [lookup_eq_none_iff, hn, ← hk']
            exact hqx
          rw [hx, hy]
        · have h1 := hlk n
          rw [lookup_cons_ne q x n hn, lookup_cons_ne r y n (by rw [← hqr]; exact hn)] at h1
          exact h1
      rw [hq, ih y hk' hnd' hlk']

theorem reducer_assoc {α : Type} (a b c : List (String × ℕ × List α))
    (ha : (a.map Prod.fst).Nodup) (hb : (b.map Prod.fst).Nodup)
    (hc : (c.map Prod.fst).Nodup) :
    _dict_addition_reducer (_dict_addition_reducer a b) c =
      _dict_addition_reducer a (_dict_addition_reducer b c) := by
  have hab := nodup_keys_merge a b ha hb
  have hbc := nodup_keys_merge b c hb hc
  apply alist_ext
  · rw [keys_merge c _ hab hc, keys_merge b a ha hb, keys_merge _ a ha hbc,
      keys_merge c b hb hc, List.filter_append, List.append_assoc]
    congr 1
    congr 1
    rw [List.filter_filter]
    apply List.filter_congr
    intro x _
    have hiff : (¬ x ∈ a.map Prod.fst ++
        (b.map Prod.fst).filter (fun n => decide (¬ n ∈ a.map Prod.fst))) ↔
        (¬ x ∈ a.map Prod.fst ∧ ¬ x ∈ b.map Prod.fst) := by
      simp only [List.mem_append, List.mem_filter, decide_eq_true_eq, not_or]
      constructor
      · rintro ⟨h1, h2⟩
        exact ⟨h1, fun hxb => h2 ⟨hxb, h1⟩⟩
      · rintro ⟨h1, h2⟩
        exact ⟨h1, fun hp => h2 hp.1⟩
    rw [decide_eq_decide.mpr hiff]
    · simp
    · infer_instance
  · exact nodup_keys_merge _ c hab hc
  · intro n
    rw [lookup_merge c _ hab hc n, lookup_merge b a ha hb n,
      lookup_merge _ a ha hbc n, lookup_merge c b hb hc n]
    rcases ha' : a.lookup n with _ | v <;> rcases hb' : b.lookup n with _ | w <;>
      rcases hc' : c.lookup n with _ | x <;>
      simp [combineOpt, addValue, Nat.add_assoc, List.append_assoc]

/-! Claim C8: the tally merge. -/

/-- C8 counterexample: the merge is not commutative as stated — the
waitlisted-key lists are concatenated in argument order, so swapping the
arguments produces a different list. -/
theorem dict_addition_reducer_not_commutative :
    _dict_addition_reducer [("s", (1, [(7 : ℚ)]))] [("s", (1, [(8 : ℚ)]))] =
        [("s", (2, [7, 8]))] ∧
      _dict_addition_reducer [("s", (1, [(8 : ℚ)]))] [("s", (1, [(7 : ℚ)]))] =
        [("s", (2, [8, 7]))] ∧
      ([("s", ((2 : ℕ), [(7 : ℚ), 8]))] : List (String × ℕ × List ℚ)) ≠
        [("s", (2, [8, 7]))] :=
  ⟨by decide, by decide, by decide⟩

/-- C8 amended: for tallies with duplicate-free name lists, `merge(A, B)`
holds, for each name present in either argument, the sum of the accepted
counts and the concatenation (A's first, then B's) of the waitlisted-key
lists; the merge is associative; and it is commutative only up to order —
both orders agree on name presence and accepted counts, and the
waitlisted-key lists are permutations of one another. -/
theorem dict_addition_reducer_spec {α : Type}
    (a b c : List (String × ℕ × List α)) (n : String)
    (ha : (a.map Prod.fst).Nodup) (hb : (b.map Prod.fst).Nodup)
    (hc : (c.map Prod.fst).Nodup) :
    ((_dict_addition_reducer a b).lookup n =
        match a.lookup n, b.lookup n with
        | some v, o => some (combineOpt v o)
        | none, o => o) ∧
      (_dict_addition_reducer (_dict_addition_reducer a b) c =
        _dict_addition_reducer a (_dict_addition_reducer b c)) ∧
      (((_dict_addition_reducer a b).lookup n).isSome =
        ((_dict_addition_reducer b a).lookup n).isSome) ∧
      ((((_dict_addition_reducer a b).lookup n).getD (0, [])).1 =
        (((_dict_addition_reducer b a).lookup n).getD (0, [])).1) ∧
      ((((_dict_addition_reducer a b).lookup n).getD (0, [])).2.Perm
        ((((_dict_addition_reducer b a).lookup n).getD (0, [])).2)) := by
  refine ⟨lookup_merge b a ha hb n, reducer_assoc a b c ha hb hc, ?_, ?_, ?_⟩ <;>
    rw [lookup_merge b a ha hb n, lookup_merge a b hb ha n] <;>
    rcases ha' : a.lookup n with _ | v <;> rcases hb' : b.lookup n with _ | w <;>
    simp [combineOpt, addValue, Nat.add_comm] <;>
    exact List.perm_append_comm

/-- Witness for C8's amended theorem on concrete tallies. -/
theorem dict_addition_reducer_spec_witness :
    ((tallyA.map Prod.fst).Nodup ∧ (tallyB.map Prod.fst).Nodup ∧
        (tallyC.map Prod.fst).Nodup) ∧
      (((_dict_addition_reducer tallyA tallyB).lookup "s" =
          match tallyA.lookup "s", tallyB.lookup "s" with
          | some v, o => some (combineOpt v o)
          | none, o => o) ∧
        (_dict_addition_reducer (_dict_addition_reducer tallyA tallyB) tallyC =
          _dict_addition_reducer tallyA (_dict_addition_reducer tallyB tallyC)) ∧
        (((_dict_addition_reducer tallyA tallyB).lookup "s").isSome =
          ((_dict_addition_reducer tallyB tallyA).lookup "s").isSome) ∧
        ((((_dict_addition_reducer tallyA tallyB).lookup "s").getD (0, [])).1 =
          (((_dict_addition_reducer tallyB tallyA).lookup "s").getD (0, [])).1) ∧
        (((_dict_addition_reducer tallyA tallyB).lookup "s").getD (0, [])).2.Perm
          (((_dict_addition_reducer tallyB tallyA).lookup "s").getD (0, [])).2) :=
  ⟨⟨by decide, by decide, by decide⟩,
    dict_addition_reducer_spec tallyA tallyB tallyC "s" (by decide) (by decide)
      (by decide)⟩

/-! Characterization of the first-pass accumulator (claim C1). -/

theorem zipWith_map_same {γ δ ε : Type} (f : γ → δ → ε) (g : γ → δ) :
    ∀ ts : List γ, List.zipWith f ts (ts.map g) = ts.map (fun t => f t (g t)) := by
  intro ts
  induction ts with
  | nil => rfl
  | cons t ts ih => simp [ih]

theorem zip_map_same {γ δ ε : Type} (f : γ → δ) (g : γ → ε) :
    ∀ ts : List γ, List.zip (ts.map f) (ts.map g) = ts.map (fun t => (f t, g t)) := by
  intro ts
  induction ts with
  | nil => rfl
  | cons t ts ih => simp [ih]

theorem foldl_zipWith_accum {α : Type} [LinearOrder α]
    (ts : List (String × α × α × α)) (keys : List α) :
    ∀ g : (String × α × α × α) → ℕ × List α,
      keys.foldl
          (fun values key => List.zipWith (fun t v => accumUpdate key t.2 v) ts values)
          (ts.map g) =
        ts.map (fun t => keys.foldl (fun v key => accumUpdate key t.2 v) (g t)) := by
  induction keys with
  | nil => intro g; rfl
  | cons k keys ih =>
    intro g
    rw [List.foldl_cons, zipWith_map_same (fun t v => accumUpdate k t.2 v) g ts,
      ih (fun t => accumUpdate k t.2 (g t))]
    rfl

theorem threshold_accumulator_eq {α : Type} [LinearOrder α]
    (ts : List (String × α × α × α)) (keys : List α) :
    _threshold_accumulator ts keys = ts.map (fun t => (t.1, tallyFor t.2 keys)) := by
  unfold _threshold_accumulator
  rw [show (ts.map (fun _ => ((0 : ℕ), ([] : List α)))) =
      ts.map (fun _t => ((0 : ℕ), ([] : List α))) from rfl,
    foldl_zipWith_accum ts keys (fun _t => (0, [])), zip_map_same]
  rfl

theorem tallyFor_foldl {α : Type} [LinearOrder α] (t : α × α × α) :
    ∀ (keys : List α) (acc : ℕ × List α),
      keys.foldl (fun v key => accumUpdate key t v) acc =
        (acc.1 + keys.countP (fun k => decide (¬ k < t.1 ∧ k < t.2.1)),
          acc.2 ++ keys.filter (fun k => decide (¬ k < t.1 ∧ ¬ k < t.2.1 ∧ k < t.2.2))) := by
  intro keys
  induction keys with
  | nil => intro acc; simp
  | cons k keys ih =>
    intro acc
    rw [List.foldl_cons, ih]
    unfold accumUpdate
    by_cases h1 : k < t.1
    · rw [if_pos h1]
      simp [List.countP_cons, List.filter_cons, h1]
    · rw [if_neg h1]
      by_cases h2 : k < t.2.1
      · rw [if_pos h2]
        simp [List.countP_cons, List.filter_cons, not_lt.mp h1, h2,
          Nat.add_assoc, Nat.add_comm 1]
      · rw [if_neg h2]
        by_cases h3 : k < t.2.2
        · rw [if_pos h3]
          simp [List.countP_cons, List.filter_cons, not_lt.mp h1, not_lt.mp h2, h3]
        · rw [if_neg h3]
          simp [List.countP_cons, List.filter_cons, not_lt.mp h1, not_lt.mp h2, h3]

theorem tallyFor_eq {α : Type} [LinearOrder α] (t : α × α × α) (keys : List α) :
    tallyFor t keys =
      (keys.countP (fun k => decide (¬ k < t.1 ∧ k < t.2.1)),
        keys.filter (fun k => decide (¬ k < t.1 ∧ ¬ k < t.2.1 ∧ k < t.2.2))) := by
  unfold tallyFor
  rw [tallyFor_foldl]
  simp

theorem tallyFor_append {α : Type} [LinearOrder α] (t : α × α × α)
    (k1 k2 : List α) :
    tallyFor t (k1 ++ k2) = addValue (tallyFor t k1) (tallyFor t k2) := by
  simp [tallyFor_eq, addValue, List.countP_append, List.filter_append]

theorem countP_or_disjoint {γ : Type} (p q : γ → Bool) :
    ∀ l : List γ, (∀ x ∈ l, ¬(p x = true ∧ q x = true)) →
      l.countP (fun x => p x || q x) = l.countP p + l.countP q := by
  intro l
  induction l with
  | nil => intro _; rfl
  | cons x l ih =>
    intro h
    have hx := h x (List.mem_cons_self x l)
    rw [List.countP_cons, List.countP_cons, List.countP_cons,
      ih (fun y hy => h y (List.mem_cons_of_mem x hy))]
    by_cases hp : p x = true
    · have hq : ¬ q x = true := fun hq => hx ⟨hp, hq⟩
      simp [hp, hq]
      omega
    · by_cases hq : q x = true <;> simp [hp, hq] <;> omega

theorem count_final_interval {α : Type} [LinearOrder α] [Zero α]
    (low accept cutoff : α) (n : ℕ) (keys : List α)
    (hla : low ≤ accept) (hac : accept ≤ cutoff) (hknd : keys.Nodup)
    (hbr1 : (tallyFor (low, accept, cutoff) keys).1 ≤ n)
    (hbr2 : n ≤ (tallyFor (low, accept, cutoff) keys).1 +
      (tallyFor (low, accept, cutoff) keys).2.length) :
    (finalFor (n : ℚ) (tallyFor (low, accept, cutoff) keys) (low, accept, cutoff)).1 = low ∧
      (finalFor (n : ℚ) (tallyFor (low, accept, cutoff) keys) (low, accept, cutoff)).2 ≤ cutoff ∧
      keys.countP (fun k => decide (¬ k < low ∧
        k < (finalFor (n : ℚ) (tallyFor (low, accept, cutoff) keys) (low, accept, cutoff)).2)) = n := by
  rw [tallyFor_eq] at hbr1 hbr2 ⊢
  set A := keys.countP (fun k => decide (¬ k < (low, accept, cutoff).1 ∧
    k < (low, accept, cutoff).2.1)) with hA
  set W := keys.filter (fun k => decide (¬ k < (low, accept, cutoff).1 ∧
    ¬ k < (low, accept, cutoff).2.1 ∧ k < (low, accept, cutoff).2.2)) with hW
  simp only at hbr1 hbr2
  unfold finalFor
  simp only
  by_cases hb1 : ((n : ℚ)) - ((A, W) : ℕ × List α).1 ≤ 0
  · rw [if_pos hb1]
    have hAn : A = n := by
      have h1 : (n : ℚ) ≤ A := by
        have := sub_nonpos.mp hb1
        exact_mod_cast this
      have h2 : n ≤ A := by exact_mod_cast h1
      omega
    refine ⟨rfl, hac, ?_⟩
    simpa [hA] using hAn
  · rw [if_neg hb1]
    have hAn : A < n := by
      have h1 : (A : ℚ) < n := by
        have := not_le.mp hb1
        linarith
      exact_mod_cast h1
    by_cases hb2 : ((W.length : ℚ)) ≤ (n : ℚ) - ((A, W) : ℕ × List α).1
    · rw [if_pos hb2]
      have hWn : A + W.length ≤ n := by
        have h1 : (W.length : ℚ) ≤ (n : ℚ) - A := hb2
        have h2 : ((A + W.length : ℕ) : ℚ) ≤ n := by push_cast; linarith
        exact_mod_cast h2
      have hn : n = A + W.length := le_antisymm (by omega) hWn
      refine ⟨rfl, le_refl _, ?_⟩
      have hsplit : keys.countP (fun k => decide (¬ k < low ∧ k < cutoff)) =
          A + W.length := by
        have hdisj : ∀ x ∈ keys,
            ¬((fun k => decide (¬ k < low ∧ k < accept)) x = true ∧
              (fun k => decide (¬ k < low ∧ ¬ k < accept ∧ k < cutoff)) x = true) := by
          intro x _
          simp only [decide_eq_true_eq]
          rintro ⟨⟨_, h1⟩, ⟨_, h2, _⟩⟩
          exact h2 h1
        have hor := countP_or_disjoint
          (fun k => decide (¬ k < low ∧ k < accept))
          (fun k => decide (¬ k < low ∧ ¬ k < accept ∧ k < cutoff)) keys hdisj
        have hcong : keys.countP (fun k => decide (¬ k < low ∧ k < cutoff)) =
            keys.countP (fun x =>
              (fun k => decide (¬ k < low ∧ k < accept)) x ||
              (fun k => decide (¬ k < low ∧ ¬ k < accept ∧ k < cutoff)) x) := by
          apply List.countP_congr
          intro x _
          simp only [decide_eq_true_eq, Bool.or_eq_true]
          constructor
          · rintro ⟨hl, hc⟩
            by_cases ha : x < accept
            · exact Or.inl ⟨hl, ha⟩
            · exact Or.inr ⟨hl, ha, hc⟩
          · rintro (⟨hl, ha⟩ | ⟨hl, ha, hc⟩)
            · exact ⟨hl, lt_of_lt_of_le ha hac⟩
            · exact ⟨hl, hc⟩
        rw [hcong, hor]
        congr 1
        rw [hW]
        rw [List.countP_eq_length_filter]
      rw [hsplit, hn]
    · rw [if_neg hb2]
      have hrW : n - A < W.length := by
        have h1 : (n : ℚ) - A < W.length := not_le.mp hb2
        have h2 : ((n - A : ℕ) : ℚ) < W.length := by
          push_cast [Nat.cast_sub hAn.le]
          linarith
        exact_mod_cast h2
      have hfloor : (⌊(n : ℚ) - ((A, W) : ℕ × List α).1⌋).toNat = n - A := by
        simp only
        rw [show ((n : ℚ) - (A : ℚ)) = (((n - A : ℕ) : ℕ) : ℚ) by
          push_cast [Nat.cast_sub hAn.le]; ring]
        rw [Int.floor_natCast, Int.toNat_natCast]
      rw [hfloor, nsmallest_last W (n - A) 0 hrW]
      set q := (W.insertionSort (· ≤ ·)).getD (n - A) 0 with hq
      have hqmem : q ∈ W := by
        rw [hq, List.getD_eq_getElem _ _ (by
          rw [List.length_insertionSort]; exact hrW)]
        exact ((List.perm_insertionSort (· ≤ ·) W).mem_iff).mp (List.getElem_mem _)
      have hqprop : ¬ q < low ∧ ¬ q < accept ∧ q < cutoff := by
        have := List.mem_filter.mp (hW ▸ hqmem)
        simpa using this.2
      refine ⟨rfl, le_of_lt hqprop.2.2, ?_⟩
      have hsplit : keys.countP (fun k => decide (¬ k < low ∧ k < q)) =
          A + (n - A) := by
        have hdisj : ∀ x ∈ keys,
            ¬((fun k => decide (¬ k < low ∧ k < accept)) x = true ∧
              (fun k => decide (¬ k < low ∧ ¬ k < accept ∧ k < q)) x = true) := by
          intro x _
          simp only [decide_eq_true_eq]
          rintro ⟨⟨_, h1⟩, ⟨_, h2, _⟩⟩
          exact h2 h1
        have hor := countP_or_disjoint
          (fun k => decide (¬ k < low ∧ k < accept))
          (fun k => decide (¬ k < low ∧ ¬ k < accept ∧ k < q)) keys hdisj
        have hcong : keys.countP (fun k => decide (¬ k < low ∧ k < q)) =
            keys.countP (fun x =>
              (fun k => decide (¬ k < low ∧ k < accept)) x ||
              (fun k => decide (¬ k < low ∧ ¬ k < accept ∧ k < q)) x) := by
          apply List.countP_congr
          intro x _
          simp only [decide_eq_true_eq, Bool.or_eq_true]
          constructor
          · rintro ⟨hl, hxq⟩
            by_cases ha : x < accept
            · exact Or.inl ⟨hl, ha⟩
            · exact Or.inr ⟨hl, ha, hxq⟩
          · rintro (⟨hl, ha⟩ | ⟨hl, ha, hxq⟩)
            · exact ⟨hl, lt_of_lt_of_le ha (not_lt.mp hqprop.2.1)⟩
            · exact ⟨hl, hxq⟩
        rw [hcong, hor]
        congr 1
        have hsub : keys.countP (fun k => decide (¬ k < low ∧ ¬ k < accept ∧ k < q)) =
            W.countP (fun k => decide (k < q)) := by
          rw [hW, List.countP_filter]
          apply List.countP_congr
          intro x _
          simp only [decide_eq_true_eq, Bool.and_eq_true]
          constructor
          · rintro ⟨hl, ha, hxq⟩
            exact ⟨hxq, ⟨hl, ha, lt_trans hxq hqprop.2.2⟩⟩
          · rintro ⟨hxq, ⟨hl, ha, _⟩⟩
            exact ⟨hl, ha, hxq⟩
        rw [hsub, hq]
        exact countP_lt_orderStat W (n - A) 0 (hknd.filter _) hrW
      rw [hsplit]
      omega

/-! Alignment of the final thresholds and the second-pass mapper (claim C1). -/

theorem finalFor_fst {α : Type} [LinearOrder α] [Zero α] (size : ℚ)
    (cw : ℕ × List α) (t : α × α × α) : (finalFor size cw t).1 = t.1 := by
  unfold finalFor
  dsimp only
  split_ifs <;> rfl

theorem final_thresholds_zipWith {α : Type} [LinearOrder α] [Zero α] :
    ∀ (sizes : List (String × ℚ)) (TS : List (String × α × α × α))
      (g : (String × α × α × α) → ℕ × List α),
      TS.map Prod.fst = sizes.map Prod.fst → (sizes.map Prod.fst).Nodup →
      _get_final_thresholds (TS.map (fun t => (t.1, g t))) sizes TS =
        List.zipWith (fun p t => (p.1, finalFor p.2 (g t) t.2)) sizes TS := by
  intro sizes
  induction sizes with
  | nil => intro TS g hk _; rfl
  | cons p sizes ih =>
    intro TS g hk hnd
    cases TS with
    | nil => simp at hk
    | cons t TS =>
      simp only [List.map_cons, List.cons.injEq] at hk
      rcases hk with ⟨htp, hk'⟩
      have hnd' : (sizes.map Prod.fst).Nodup := (List.nodup_cons.mp hnd).2
      have hpn : ¬ p.1 ∈ sizes.map Prod.fst := (List.nodup_cons.mp hnd).1
      unfold _get_final_thresholds
      simp only [List.map_cons, List.zipWith_cons_cons]
      congr 1
      · have h1 : ((t.1, g t) :: TS.map (fun t => (t.1, g t))).lookup p.1 = some (g t) := by
          rw [← htp]
          exact lookup_cons_self (t.1, g t) _
        have h2 : ((t :: TS).lookup p.1) = some t.2 := by
          rw [← htp]
          exact lookup_cons_self t TS
        rw [h1, h2]
        rfl
      · have hcong : sizes.map (fun x =>
            (x.1, finalFor x.2
              ((((t.1, g t) :: TS.map (fun t => (t.1, g t))).lookup x.1).getD (0, []))
              ((((t :: TS)).lookup x.1).getD (0, 0, 0)))) =
            _get_final_thresholds (TS.map (fun t => (t.1, g t))) sizes TS := by
          unfold _get_final_thresholds
          apply List.map_congr_left
          intro x hx
          have hxp : x.1 ≠ p.1 := by
            intro hc
            exact hpn (hc ▸ (List.mem_map_of_mem Prod.fst hx))
          have hxt : x.1 ≠ t.1 := by rw [htp]; exact hxp
          rw [lookup_cons_ne (t.1, g t) _ x.1 hxt, lookup_cons_ne t TS x.1 hxt]
        rw [hcong, ih TS g hk' hnd']

theorem mem_zipWith_pair {γ δ ε : Type} (f : γ → δ → ε) :
    ∀ (l1 : List γ) (l2 : List δ) (x : ε), x ∈ List.zipWith f l1 l2 →
      ∃ c d, c ∈ l1 ∧ d ∈ l2 ∧ x = f c d := by
  intro l1
  induction l1 with
  | nil => intro l2 x hx; simp at hx
  | cons c l1 ih =>
    intro l2 x hx
    cases l2 with
    | nil => simp at hx
    | cons d l2 =>
      rw [List.zipWith_cons_cons] at hx
      rcases List.mem_cons.mp hx with rfl | hx'
      · exact ⟨c, d, List.mem_cons_self _ _, List.mem_cons_self _ _, rfl⟩
      · rcases ih l2 x hx' with ⟨c', d', hc, hd, hx⟩
        exact ⟨c', d', List.mem_cons_of_mem c hc, List.mem_cons_of_mem d hd, hx⟩

theorem mapRecord_eq_none {α β : Type} [LinearOrder α] (rk : β × α) :
    ∀ ft : List (String × α × α), (∀ t ∈ ft, rk.2 < t.2.1) →
      mapRecord rk ft = none := by
  intro ft
  induction ft with
  | nil => intro _; rfl
  | cons t ft ih =>
    intro h
    unfold mapRecord
    rw [if_pos (h t (List.mem_cons_self t ft))]
    exact ih (fun u hu => h u (List.mem_cons_of_mem t hu))

theorem mapRecord_name_mem {α β : Type} [LinearOrder α] (rk : β × α) :
    ∀ (ft : List (String × α × α)) (pr : String × β),
      mapRecord rk ft = some pr → pr.1 ∈ ft.map Prod.fst := by
  intro ft
  induction ft with
  | nil => intro pr h; simp [mapRecord] at h
  | cons t ft ih =>
    intro pr h
    unfold mapRecord at h
    split_ifs at h with h1 h2
    · exact List.mem_cons_of_mem _ (ih pr h)
    · rw [Option.some.inj h.symm]
      exact List.mem_cons_self _ _
    · exact List.mem_cons_of_mem _ (ih pr h)

theorem countP_threshold_mapper {α β : Type} [LinearOrder α]
    (ft : List (String × α × α)) (p : String → Bool) :
    ∀ data : List (β × α),
      (_threshold_mapper ft data).countP (fun pr => p pr.1) =
        data.countP (fun rk =>
          match mapRecord rk ft with
          | some pr => p pr.1
          | none => false) := by
  intro data
  induction data with
  | nil => rfl
  | cons rk data ih =>
    unfold _threshold_mapper at ih ⊢
    rw [List.filterMap_cons]
    cases h : mapRecord rk ft with
    | none =>
      rw [ih, List.countP_cons]
      simp [h]
    | some pr =>
      rw [List.countP_cons, ih, List.countP_cons]
      simp [h]

/-! The main counting induction for claim C1. -/

theorem compute_thresholds_fst_nonneg (p N δ : ℝ) :
    0 ≤ (_compute_thresholds p N δ).1 := by
  unfold _compute_thresholds
  exact le_max_left 0 _

theorem ofNatSizes_fst (sizes : List (String × ℕ)) :
    (ofNatSizes sizes).map Prod.fst = sizes.map Prod.fst := by
  unfold ofNatSizes
  rw [List.map_map]
  rfl

theorem ofNatSizes_nonneg (sizes : List (String × ℕ)) :
    ∀ p ∈ ofNatSizes sizes, 0 ≤ p.2 := by
  intro p hp
  unfold ofNatSizes at hp
  rcases List.mem_map.mp hp with ⟨x, _, rfl⟩
  positivity

theorem nat_mem_le_sum : ∀ (l : List ℕ) (x : ℕ), x ∈ l → x ≤ l.sum := by
  intro l
  induction l with
  | nil => intro x hx; simp at hx
  | cons a l ih =>
    intro x hx
    rcases List.mem_cons.mp hx with rfl | hx'
    · simp
    · have := ih x hx'
      simp only [List.sum_cons]
      omega

theorem mapper_counts {β : Type} (count : ℚ) (delta : ℝ) (hδ0 : 0 ≤ delta)
    (hδ1 : delta ≤ 1) (hc : 0 < count) (data : List (β × ℝ))
    (hknd : (data.map Prod.snd).Nodup) :
    ∀ (sizes : List (String × ℕ)) (offset : ℝ),
      (sizes.map Prod.fst).Nodup →
      (∀ p ∈ sizes, (p.2 : ℚ) ≤ count) →
      (∀ t ∈ initialThresholdsGo count delta offset (ofNatSizes sizes),
        ∀ m : ℕ, (t.1, m) ∈ sizes →
          (tallyFor t.2 (data.map Prod.snd)).1 ≤ m ∧
            m ≤ (tallyFor t.2 (data.map Prod.snd)).1 +
              (tallyFor t.2 (data.map Prod.snd)).2.length) →
      ∀ (name : String) (n : ℕ), (name, n) ∈ sizes →
        List.countP (fun pr => pr.1 == name)
          (_threshold_mapper
            (_get_final_thresholds
              ((initialThresholdsGo count delta offset (ofNatSizes sizes)).map
                (fun t => (t.1, tallyFor t.2 (data.map Prod.snd))))
              (ofNatSizes sizes)
              (initialThresholdsGo count delta offset (ofNatSizes sizes)))
            data) = n := by
  intro sizes
  induction sizes with
  | nil =>
    intro offset _ _ _ name n hmem
    simp at hmem
  | cons q sizes ih =>
    intro offset hnd hsz hbr name n hmem
    have hc' : (0 : ℝ) < ((count : ℚ) : ℝ) := by exact_mod_cast hc
    have hP0 : 0 ≤ (((q.2 : ℚ) : ℝ)) / ((count : ℚ) : ℝ) := by positivity
    have hP1 : (((q.2 : ℚ) : ℝ)) / ((count : ℚ) : ℝ) ≤ 1 := by
      rw [div_le_one hc']
      exact_mod_cast hsz q (List.mem_cons_self q sizes)
    set ql := (_compute_thresholds ((((q.2 : ℚ) : ℝ)) / ((count : ℚ) : ℝ))
      ((count : ℚ) : ℝ) delta).1 with hql
    set qh := (_compute_thresholds ((((q.2 : ℚ) : ℝ)) / ((count : ℚ) : ℝ))
      ((count : ℚ) : ℝ) delta).2 with hqh
    have hql0 : 0 ≤ ql := compute_thresholds_fst_nonneg _ _ _
    have hqlh : ql ≤ qh :=
      le_trans (compute_thresholds_fst_le _ _ _ hP0 hc'.le hδ0 hδ1)
        (compute_thresholds_le_snd _ _ _ hP0 hP1 hc'.le hδ0 hδ1)
    have hqh0 : 0 ≤ qh :=
      compute_thresholds_snd_nonneg _ _ _ hP0 hc'.le hδ0 hδ1
    have hgo : initialThresholdsGo count delta offset (ofNatSizes (q :: sizes)) =
        (q.1, offset, offset + ql, offset + qh) ::
          initialThresholdsGo count delta (offset + qh) (ofNatSizes sizes) := rfl
    have hndT : (sizes.map Prod.fst).Nodup := (List.nodup_cons.mp hnd).2
    have hqn : ¬ q.1 ∈ sizes.map Prod.fst := (List.nodup_cons.mp hnd).1
    set keys := data.map Prod.snd with hkeys
    set TS := initialThresholdsGo count delta (offset + qh) (ofNatSizes sizes)
      with hTS
    set fin := finalFor ((q.2 : ℚ))
      (tallyFor (offset, offset + ql, offset + qh) keys)
      (offset, offset + ql, offset + qh) with hfin
    set FT := List.zipWith
      (fun p t => (p.1, finalFor p.2 (tallyFor t.2 keys) t.2))
      (ofNatSizes sizes) TS with hFT
    have hTSfst : TS.map Prod.fst = (ofNatSizes sizes).map Prod.fst :=
      initialThresholdsGo_map_fst count delta (offset + qh) (ofNatSizes sizes)
    have hfull : _get_final_thresholds
        ((initialThresholdsGo count delta offset (ofNatSizes (q :: sizes))).map
          (fun t => (t.1, tallyFor t.2 keys)))
        (ofNatSizes (q :: sizes))
        (initialThresholdsGo count delta offset (ofNatSizes (q :: sizes))) =
        (q.1, fin) :: FT := by
      rw [hgo]
      rw [final_thresholds_zipWith (ofNatSizes (q :: sizes))
        ((q.1, offset, offset + ql, offset + qh) :: TS)
        (fun t => tallyFor t.2 keys)
        (by
          show ((q.1, offset, offset + ql, offset + qh) :: TS).map Prod.fst =
            (ofNatSizes (q :: sizes)).map Prod.fst
          rw [List.map_cons, hTSfst]
          rfl)
        (by rw [ofNatSizes_fst]; exact hnd)]
      rfl
    have hbrh := hbr (q.1, offset, offset + ql, offset + qh)
      (by rw [hgo]; exact List.mem_cons_self _ _) q.2
      (by rw [Prod.mk.eta]; exact List.mem_cons_self q sizes)
    have hcfi := count_final_interval offset (offset + ql) (offset + qh) q.2
      keys (by linarith) (by linarith) hknd hbrh.1 hbrh.2
    have hlows : ∀ ft ∈ FT, offset + qh ≤ ft.2.1 ∧ ft.1 ∈ sizes.map Prod.fst := by
      intro ft hft
      rcases mem_zipWith_pair _ _ _ ft (hFT ▸ hft) with ⟨p, t, hp, ht, rfl⟩
      constructor
      · show offset + qh ≤ (finalFor p.2 (tallyFor t.2 keys) t.2).1
        rw [finalFor_fst]
        exact go_low_ge count delta hδ0 hδ1 hc (ofNatSizes sizes)
          (ofNatSizes_nonneg sizes) (offset + qh) t ht
      · show p.1 ∈ sizes.map Prod.fst
        rw [← ofNatSizes_fst]
        exact List.mem_map_of_mem Prod.fst hp
    have hFTname : ∀ (rk : β × ℝ) (pr : String × β), mapRecord rk FT = some pr →
        pr.1 ∈ sizes.map Prod.fst := by
      intro rk pr hpr
      have h1 := mapRecord_name_mem rk FT pr hpr
      rcases List.mem_map.mp h1 with ⟨ft, hft, hfst⟩
      rw [← hfst]
      exact (hlows ft hft).2
    rcases List.mem_cons.mp hmem with heq | hmem'
    · have hname : name = q.1 := by rw [← heq]
      have hn : n = q.2 := by rw [← heq]
      rw [hfull, countP_threshold_mapper ((q.1, fin) :: FT) (fun s => s == name) data]
      have hpt : ∀ rk ∈ data,
          ((fun rk =>
            match mapRecord rk ((q.1, fin) :: FT) with
            | some pr => pr.1 == name
            | none => false) rk = true) ↔
          ((fun rk => decide (¬ rk.2 < offset ∧ rk.2 < fin.2)) rk = true) := by
        intro rk _
        show (match
            (if rk.2 < fin.1 then mapRecord rk FT
              else if rk.2 < fin.2 then some (q.1, rk.1) else mapRecord rk FT) with
          | some pr => pr.1 == name
          | none => false) = true ↔
          decide (¬ rk.2 < offset ∧ rk.2 < fin.2) = true
        rw [hcfi.1]
        by_cases h1 : rk.2 < offset
        · rw [if_pos h1]
          simp only [decide_eq_true_eq]
          constructor
          · intro hmt
            cases hm : mapRecord rk FT with
            | none => rw [hm] at hmt; simp at hmt
            | some pr =>
              rw [hm] at hmt
              have : pr.1 = name := by simpa using hmt
              exact absurd (this ▸ hFTname rk pr hm) (hname ▸ hqn)
          · rintro ⟨hcon, _⟩
            exact absurd h1 hcon
        · rw [if_neg h1]
          by_cases h2 : rk.2 < fin.2
          · rw [if_pos h2]
            simp [hname, h1, h2]
          · rw [if_neg h2]
            simp only [decide_eq_true_eq]
            constructor
            · intro hmt
              cases hm : mapRecord rk FT with
              | none => rw [hm] at hmt; simp at hmt
              | some pr =>
                rw [hm] at hmt
                have : pr.1 = name := by simpa using hmt
                exact absurd (this ▸ hFTname rk pr hm) (hname ▸ hqn)
            · rintro ⟨_, hcon⟩
              exact absurd hcon h2
      rw [List.countP_congr hpt]
      have hmapP : data.countP (fun rk => decide (¬ rk.2 < offset ∧ rk.2 < fin.2)) =
          keys.countP (fun k => decide (¬ k < offset ∧ k < fin.2)) := by
        rw [hkeys, List.countP_map]
        rfl
      rw [hmapP, hn]
      exact hcfi.2.2
    · have hnq : name ≠ q.1 := by
        intro hcq
        exact hqn (hcq ▸ List.mem_map_of_mem Prod.fst hmem')
      rw [hfull, countP_threshold_mapper ((q.1, fin) :: FT) (fun s => s == name) data]
      have hpt : ∀ rk ∈ data,
          ((fun rk =>
            match mapRecord rk ((q.1, fin) :: FT) with
            | some pr => pr.1 == name
            | none => false) rk = true) ↔
          ((fun rk =>
            match mapRecord rk FT with
            | some pr => pr.1 == name
            | none => false) rk = true) := by
        intro rk _
        show (match
            (if rk.2 < fin.1 then mapRecord rk FT
              else if rk.2 < fin.2 then some (q.1, rk.1) else mapRecord rk FT) with
          | some pr => pr.1 == name
          | none => false) = true ↔
          (match mapRecord rk FT with
          | some pr => pr.1 == name
          | none => false) = true
        by_cases h1 : rk.2 < fin.1
        · rw [if_pos h1]
        · by_cases h2 : rk.2 < fin.2
          · rw [if_neg h1, if_pos h2]
            have hnone : mapRecord rk FT = none := by
              apply mapRecord_eq_none
              intro t ht
              calc rk.2 < fin.2 := h2
                _ ≤ offset + qh := hcfi.2.1
                _ ≤ t.2.1 := (hlows t ht).1
            rw [hnone]
            simp [beq_eq_false_iff_ne.mpr (Ne.symm hnq)]
          · rw [if_neg h1, if_neg h2]
      rw [List.countP_congr hpt,
        ← countP_threshold_mapper FT (fun s => s == name) data,
        show FT = _get_final_thresholds
            (TS.map (fun t => (t.1, tallyFor t.2 keys))) (ofNatSizes sizes) TS from
          (final_thresholds_zipWith (ofNatSizes sizes) TS
            (fun t => tallyFor t.2 keys) hTSfst
            (by rw [ofNatSizes_fst]; exact hndT)).symm]
      exact ih (offset + qh) hndT
        (fun p hp => hsz p (List.mem_cons_of_mem q hp))
        (fun t ht m hm => hbr t (by rw [hgo]; exact List.mem_cons_of_mem _ ht) m
          (List.mem_cons_of_mem q hm))
        name n hmem'

/-! Claim C1: exactness of the two-pass pipeline. -/

/-- C1 amended: on absolute sizes summing to at most the population, with
pairwise-distinct keys, and provided the first pass brackets each target
(per-set accepted count ≤ target ≤ accepted + waitlisted), `scalable_srs`
emits for each target set exactly that set's target number of
`(set name, record)` pairs. -/
theorem scalable_srs_exact_counts {β : Type} (keyed : ℤ → List (β × ℝ))
    (sizes : List (String × ℕ)) (count : ℚ) (delta : ℝ) (seed : Option ℤ)
    (clock : ℚ) (name : String) (n : ℕ)
    (hnd : (sizes.map Prod.fst).Nodup)
    (hc : 0 < count)
    (hsum : (((sizes.map Prod.snd).sum : ℕ) : ℚ) ≤ count)
    (hδ0 : 0 ≤ delta) (hδ1 : delta ≤ 1)
    (hknd : ((keyed (resolveSeed seed clock)).map Prod.snd).Nodup)
    (hbr : ∀ t ∈ _get_initial_thresholds (ofNatSizes sizes) count delta,
      ∀ m : ℕ, (t.1, m) ∈ sizes →
        (tallyFor t.2 ((keyed (resolveSeed seed clock)).map Prod.snd)).1 ≤ m ∧
          m ≤ (tallyFor t.2 ((keyed (resolveSeed seed clock)).map Prod.snd)).1 +
            (tallyFor t.2 ((keyed (resolveSeed seed clock)).map Prod.snd)).2.length)
    (hmem : (name, n) ∈ sizes) :
    ∃ out, scalable_srs keyed (ofNatSizes sizes) count delta seed clock false =
        some out ∧ out.countP (fun pr => pr.1 == name) = n := by
  have hnorm : _set_up_set_sizes (ofNatSizes sizes) count false =
      some (ofNatSizes sizes) := by
    rw [setUpSetSizes_natSizes, sum_ofNatSizes, if_neg (not_lt.mpr hsum)]
  have hout : scalable_srs keyed (ofNatSizes sizes) count delta seed clock false =
      some (_threshold_mapper
        (_get_final_thresholds
          (_threshold_accumulator
            (_get_initial_thresholds (ofNatSizes sizes) count delta)
            ((keyed (resolveSeed seed clock)).map Prod.snd))
          (ofNatSizes sizes)
          (_get_initial_thresholds (ofNatSizes sizes) count delta))
        (keyed (resolveSeed seed clock))) := by
    unfold scalable_srs
    rw [hnorm]
  refine ⟨_, hout, ?_⟩
  rw [threshold_accumulator_eq]
  have hsz : ∀ p ∈ sizes, ((p.2 : ℚ)) ≤ count := by
    intro p hp
    have h1 : p.2 ≤ (sizes.map Prod.snd).sum :=
      nat_mem_le_sum (sizes.map Prod.snd) p.2 (List.mem_map_of_mem Prod.snd hp)
    have h2 : ((p.2 : ℚ)) ≤ (((sizes.map Prod.snd).sum : ℕ) : ℚ) := by
      exact_mod_cast h1
    exact le_trans h2 hsum
  exact mapper_counts count delta hδ0 hδ1 hc (keyed (resolveSeed seed clock))
    hknd sizes 0 hnd hsz hbr name n hmem

/-- C1 counterexample: a valid configuration (one set of size `1` on a
population of `2`, distinct keys) for which the pipeline outputs no pair at
all — both keys land above the waitlist cutoff, so the exact-size guarantee
fails without the bracketing condition. -/
theorem scalable_srs_not_always_exact :
    (((([("a", 1)] : List (String × ℕ)).map Prod.snd).sum : ℚ) ≤ 2) ∧
      (([((0 : ℕ), (3 / 5 : ℝ)), (1, 7 / 10)].map Prod.snd).Nodup) ∧
      scalable_srs (fun _ => [((0 : ℕ), (3 / 5 : ℝ)), (1, 7 / 10)])
          (ofNatSizes [("a", 1)]) 2 1 (some 1) 0 false = some [] ∧
      (([] : List (String × ℕ)).countP (fun pr => pr.1 == "a") = 0 ∧ (0 : ℕ) ≠ 1) := by
  refine ⟨by norm_num, by norm_num, ?_, by decide, by decide⟩
  rw [scalable_srs, setUpSetSizes_natSizes]
  norm_num [ofNatSizes, _get_initial_thresholds, initialThresholdsGo,
    compute_thresholds_delta_one, _threshold_accumulator, accumUpdate,
    _get_final_thresholds, finalFor, List.lookup, _threshold_mapper,
    mapRecord, List.filterMap_cons]

/-- Witness for C1's amended theorem: one set of size `1` on a population of
`2` with `δ = 1` and keys `3/10`, `7/10`; the first pass accepts exactly one
key, the bracketing condition holds, and the output holds exactly one
`("a", record)` pair. -/
theorem scalable_srs_exact_counts_witness :
    (((([("a", 1)] : List (String × ℕ)).map Prod.snd).sum : ℚ) ≤ 2) ∧
      ∃ out, scalable_srs (fun _ => [((0 : ℕ), (3 / 10 : ℝ)), (1, 7 / 10)])
          (ofNatSizes [("a", 1)]) 2 1 (some 1) 0 false = some out ∧
        out.countP (fun pr => pr.1 == "a") = 1 :=
  ⟨by norm_num,
    scalable_srs_exact_counts (fun _ => [((0 : ℕ), (3 / 10 : ℝ)), (1, 7 / 10)])
      [("a", 1)] 2 1 (some 1) 0 "a" 1 (by decide) (by norm_num) (by norm_num)
      (by norm_num) (le_refl 1) (by norm_num)
      (by
        intro t ht m hm
        have hth : _get_initial_thresholds (ofNatSizes [("a", 1)]) 2 1 =
            [("a", 0, 1 / 2, 1 / 2)] := by
          norm_num [ofNatSizes, _get_initial_thresholds, initialThresholdsGo,
            compute_thresholds_delta_one]
        rw [hth] at ht
        rcases List.mem_cons.mp ht with rfl | hcon
        · have hm1 : m = 1 := by simpa using hm
          subst hm1
          norm_num [tallyFor, accumUpdate]
        · simp at hcon)
      (by decide)⟩

end YelpSampling
